import Mathlib

/-!
Shallow embedding of the sticky-notes single-page application
(src/src/app/page.tsx).

The component keeps four pieces of React state: the note list, the
monotone z-index counter, the transient drag session, and the tutorial
flag.  We add the browser's persistent record under the single storage
key as a fifth field, so the interplay between handlers and the
save-on-change effect (page.tsx lines 83-87) can be stated.

Numbers: pointer coordinates and note positions are JavaScript doubles
used only through addition and subtraction here; they are modelled as
rationals.  z-index, width and height are modelled as integers.

Randomness (Math.random, crypto.randomUUID) is modelled by passing the
drawn values as explicit arguments to addNote.
-/

namespace StickyNotes

/-- The six palette colors (page.tsx line 6). -/
inductive NoteColor
  | yellow | blue | green | pink | orange | purple
deriving DecidableEq, Repr

/-- One sticky note (page.tsx lines 8-17). -/
structure Note where
  id : String
  x : ℚ
  y : ℚ
  content : String
  color : NoteColor
  zIndex : Int
  width : Int
  height : Int
deriving DecidableEq, Repr

/-- The transient drag session (page.tsx lines 19-26). -/
structure DragState where
  isDragging : Bool
  noteId : Option String
  startX : ℚ
  startY : ℚ
  initialNoteX : ℚ
  initialNoteY : ℚ
deriving DecidableEq, Repr

/-- The record stored in localStorage under STORAGE_KEY, as the load
effect (page.tsx lines 64-80) distinguishes it: absent key, a string
JSON.parse throws on, a parse result that is not an array, or an
array of note records. -/
inductive StoredPayload
  | absent
  | malformed
  | nonArray
  | arrayOf (ns : List Note)
deriving DecidableEq, Repr

/-- Insertion order of COLOR_KEYS = Object.keys(COLORS)
(page.tsx lines 29-38). -/
def COLOR_KEYS : List NoteColor :=
  [.yellow, .blue, .green, .pink, .orange, .purple]

def DEFAULT_WIDTH : Int := 220

def DEFAULT_HEIGHT : Int := 220

/-- The full component state plus the persistent record. -/
structure AppState where
  notes : List Note
  maxZIndex : Int
  dragState : DragState
  showTutorial : Bool
  storage : StoredPayload
deriving DecidableEq, Repr

/-- Initial drag state (page.tsx lines 47-54). -/
def initialDragState : DragState :=
  { isDragging := false, noteId := none,
    startX := 0, startY := 0, initialNoteX := 0, initialNoteY := 0 }

/-- The save effect (page.tsx lines 83-87): after any change to the
notes array or the tutorial flag, write the serialized notes under the
storage key unless the state is the pristine pre-load one
(notes empty and tutorial still shown). -/
def saveEffect (s : AppState) : AppState :=
  if 0 < s.notes.length ∨ s.showTutorial = false then
    { s with storage := .arrayOf s.notes }
  else s

/-- The mount-time load effect (page.tsx lines 64-80), starting from
the initial useState values (empty notes, maxZIndex 1, tutorial
shown).  A parse failure is caught and a non-array parse is skipped,
both leaving the initial state; an array is installed as the note
list, and maxZIndex becomes one more than the reduce over
(note.zIndex || 1) with initial accumulator 1 (0 is the only falsy
integer).  The tutorial is hidden when the array is non-empty. -/
def loadApp (p : StoredPayload) : AppState :=
  match p with
  | .arrayOf parsed =>
      { notes := parsed,
        maxZIndex :=
          (parsed.foldl
            (fun mx note => max mx (if note.zIndex = 0 then 1 else note.zIndex)) 1) + 1,
        dragState := initialDragState,
        showTutorial := if 0 < parsed.length then false else true,
        storage := p }
  | _ =>
      { notes := [], maxZIndex := 1, dragState := initialDragState,
        showTutorial := true, storage := p }

/-- addNote (page.tsx lines 92-114).  rx, ry, rc are the three
Math.random() draws and newId the crypto.randomUUID() result. -/
def addNote (newId : String) (rx ry rc : ℚ) (s : AppState) : AppState :=
  let newZIndex := s.maxZIndex + 1
  let startX := 50 + rx * 100
  let startY := 80 + ry * 100
  let randomColor := COLOR_KEYS.getD (Int.toNat ⌊rc * (COLOR_KEYS.length : ℚ)⌋) .yellow
  let newNote : Note :=
    { id := newId, x := startX, y := startY, content := "",
      color := randomColor, zIndex := newZIndex,
      width := DEFAULT_WIDTH, height := DEFAULT_HEIGHT }
  saveEffect { s with
    notes := s.notes ++ [newNote],
    maxZIndex := newZIndex,
    showTutorial := false }

/-- updateNoteContent (page.tsx lines 116-118), with the save effect
that follows the setNotes call. -/
def updateNoteContent (id content : String) (s : AppState) : AppState :=
  saveEffect { s with
    notes := s.notes.map fun n => if n.id == id then { n with content := content } else n }

/-- updateNoteColor (page.tsx lines 120-122). -/
def updateNoteColor (id : String) (color : NoteColor) (s : AppState) : AppState :=
  saveEffect { s with
    notes := s.notes.map fun n => if n.id == id then { n with color := color } else n }

/-- deleteNote (page.tsx lines 124-126). -/
def deleteNote (id : String) (s : AppState) : AppState :=
  saveEffect { s with notes := s.notes.filter fun n => !(n.id == id) }

/-- bringToFront (page.tsx lines 128-135).  The early return fires
only when the note is found AND already at maxZIndex; when find
returns undefined the guard is falsy and the counter is still
advanced. -/
def bringToFront (id : String) (s : AppState) : AppState :=
  let targetNote := s.notes.find? fun n => n.id == id
  if targetNote.any fun t => t.zIndex == s.maxZIndex then s
  else
    let newZ := s.maxZIndex + 1
    saveEffect { s with
      maxZIndex := newZ,
      notes := s.notes.map fun n => if n.id == id then { n with zIndex := newZ } else n }

/-- clearAll (page.tsx lines 137-142): when the user confirms, the
notes are emptied and the storage record removed; the save effect then
runs on the changed notes array. -/
def clearAll (confirmed : Bool) (s : AppState) : AppState :=
  if confirmed then
    saveEffect { s with notes := [], storage := .absent }
  else s

/-- handleDragStart (page.tsx lines 146-174): bail out if the note is
not found, else bring it to front and record the anchor pointer
position and the note's pre-drag position. -/
def handleDragStart (clientX clientY : ℚ) (id : String) (s : AppState) : AppState :=
  match s.notes.find? fun n => n.id == id with
  | none => s
  | some note =>
      let s1 := bringToFront id s
      { s1 with dragState :=
        { isDragging := true, noteId := some id,
          startX := clientX, startY := clientY,
          initialNoteX := note.x, initialNoteY := note.y } }

/-- The JavaScript truthiness test !dragState.noteId used by
handleMouseMove (page.tsx line 179): null and the empty string are
falsy. -/
def noteIdFalsy : Option String → Bool
  | none => true
  | some nid => nid == ""

/-- handleMouseMove (page.tsx lines 177-202): guard on an active
session with a truthy note id, then reposition the target note
absolutely from the anchor. -/
def handleMouseMove (clientX clientY : ℚ) (s : AppState) : AppState :=
  if !s.dragState.isDragging ∨ noteIdFalsy s.dragState.noteId then s
  else
    match s.dragState.noteId with
    | none => s
    | some nid =>
        let deltaX := clientX - s.dragState.startX
        let deltaY := clientY - s.dragState.startY
        saveEffect { s with
          notes := s.notes.map fun n =>
            if n.id == nid then
              { n with x := s.dragState.initialNoteX + deltaX,
                       y := s.dragState.initialNoteY + deltaY }
            else n }

/-- handleMouseUp (page.tsx lines 204-208). -/
def handleMouseUp (s : AppState) : AppState :=
  if s.dragState.isDragging then
    { s with dragState := { s.dragState with isDragging := false, noteId := none } }
  else s

/-- Window-level events a drag session can see.  The listener effect
(page.tsx lines 211-230) registers handlers only for mousemove,
mouseup, touchmove and touchend; pointercancel and touchcancel have
no registered handler in the component. -/
inductive UiEvent
  | mouseMove (clientX clientY : ℚ)
  | touchMove (clientX clientY : ℚ)
  | mouseUp
  | touchEnd
  | touchCancel
  | pointerCancel
deriving DecidableEq, Repr

/-- Event dispatch per the registered listeners (page.tsx lines
211-230): move events feed handleMouseMove, end events feed
handleMouseUp, and cancel events hit no handler at all. -/
def dispatch : UiEvent → AppState → AppState
  | .mouseMove x y, s => handleMouseMove x y s
  | .touchMove x y, s => handleMouseMove x y s
  | .mouseUp, s => handleMouseUp s
  | .touchEnd, s => handleMouseUp s
  | .touchCancel, s => s
  | .pointerCancel, s => s

/-- A sequence of pointer-move events applied in order. -/
def applyMoves (ps : List (ℚ × ℚ)) (s : AppState) : AppState :=
  ps.foldl (fun st p => handleMouseMove p.1 p.2 st) s

/-- One random draw for addNote: the UUID and the three
Math.random() results. -/
structure AddInput where
  id : String
  rx : ℚ
  ry : ℚ
  rc : ℚ
deriving DecidableEq, Repr

/-- A sequence of addNote calls driven by a list of random draws. -/
def applyAdds (l : List AddInput) (s : AppState) : AppState :=
  l.foldl (fun st i => addNote i.id i.rx i.ry i.rc st) s

/-- The note addNote builds from draw i at z-index z; agrees
definitionally with the record literal inside addNote. -/
def mkNote (i : AddInput) (z : Int) : Note :=
  { id := i.id, x := 50 + i.rx * 100, y := 80 + i.ry * 100, content := "",
    color := COLOR_KEYS.getD (Int.toNat ⌊i.rc * (COLOR_KEYS.length : ℚ)⌋) .yellow,
    zIndex := z, width := DEFAULT_WIDTH, height := DEFAULT_HEIGHT }

/-- The notes a run of addNote calls appends, starting above
stacking counter z. -/
def createdNotes : List AddInput → Int → List Note
  | [], _ => []
  | i :: rest, z => mkNote i (z + 1) :: createdNotes rest (z + 1)

/-- States reachable from a mount-time load of any persisted payload
by the component's event handlers. -/
inductive Reachable : AppState → Prop
  | loaded (p : StoredPayload) : Reachable (loadApp p)
  | add {s} (newId : String) (rx ry rc : ℚ) :
      Reachable s → Reachable (addNote newId rx ry rc s)
  | content {s} (id text : String) :
      Reachable s → Reachable (updateNoteContent id text s)
  | recolor {s} (id : String) (c : NoteColor) :
      Reachable s → Reachable (updateNoteColor id c s)
  | remove {s} (id : String) :
      Reachable s → Reachable (deleteNote id s)
  | toFront {s} (id : String) :
      Reachable s → Reachable (bringToFront id s)
  | wipe {s} (confirmed : Bool) :
      Reachable s → Reachable (clearAll confirmed s)
  | dragStart {s} (clientX clientY : ℚ) (id : String) :
      Reachable s → Reachable (handleDragStart clientX clientY id s)
  | event {s} (e : UiEvent) :
      Reachable s → Reachable (dispatch e s)

/-- The stacking invariant: the counter dominates every note. -/
def StackInv (s : AppState) : Prop :=
  ∀ n ∈ s.notes, n.zIndex ≤ s.maxZIndex

/-! ### Helper lemmas -/

@[simp]
lemma saveEffect_notes (s : AppState) : (saveEffect s).notes = s.notes := by
  unfold saveEffect; split <;> rfl

@[simp]
lemma saveEffect_maxZIndex (s : AppState) : (saveEffect s).maxZIndex = s.maxZIndex := by
  unfold saveEffect; split <;> rfl

@[simp]
lemma saveEffect_dragState (s : AppState) : (saveEffect s).dragState = s.dragState := by
  unfold saveEffect; split <;> rfl

@[simp]
lemma saveEffect_showTutorial (s : AppState) : (saveEffect s).showTutorial = s.showTutorial := by
  unfold saveEffect; split <;> rfl

/-- find? over an id-preserving rewrite of the list finds the rewrite
of the original hit. -/
lemma find?_map_id_pres (l : List Note) (id : String) (f : Note → Note)
    (hf : ∀ n, (f n).id = n.id) :
    ((l.map f).find? fun n => n.id == id) = (l.find? fun n => n.id == id).map f := by
  induction l with
  | nil => rfl
  | cons a l ih =>
      simp only [List.map_cons, List.find?_cons]
      rw [hf a]
      cases ha : (a.id == id) <;> simp [ha, ih]

lemma bringToFront_guard_true (id : String) (s : AppState)
    (hg : ((s.notes.find? fun n => n.id == id).any fun t => t.zIndex == s.maxZIndex) = true) :
    bringToFront id s = s := by
  unfold bringToFront
  simp only [hg, if_true]

lemma bringToFront_guard_false (id : String) (s : AppState)
    (hg : ((s.notes.find? fun n => n.id == id).any fun t => t.zIndex == s.maxZIndex) = false) :
    bringToFront id s =
      saveEffect { s with
        maxZIndex := s.maxZIndex + 1,
        notes := s.notes.map fun n =>
          if n.id == id then { n with zIndex := s.maxZIndex + 1 } else n } := by
  unfold bringToFront
  simp only [hg, Bool.false_eq_true, if_false]

/-- Mapping a function that fixes every element of the list is the
identity on that list. -/
lemma map_id_on (l : List Note) (f : Note → Note) (h : ∀ n ∈ l, f n = n) :
    l.map f = l := by
  induction l with
  | nil => rfl
  | cons a l ih =>
      simp only [List.map_cons]
      rw [h a (by simp), ih fun n hn => h n (by simp [hn])]

/-! ### C1: clearAll and the persisted record -/

/-- A sample persisted note used for concrete states. -/
def sampleNote : Note :=
  { id := "a", x := 60, y := 90, content := "hi", color := .yellow,
    zIndex := 1, width := 220, height := 220 }

/-- C1.  The claim says an explicit wipe leaves the persistent record
fully removed (absent) and that no save of the now-empty collection
follows the erase.  In the code the save effect (page.tsx lines 83-87)
observes the notes change to [] with the tutorial hidden and writes
the empty array back after localStorage.removeItem, so after a
confirmed clearAll from a loaded one-note board the record is the
empty-array record, not absent - indistinguishable from deleting every
note individually. -/
theorem clearAll_rewrites_empty_record :
    (loadApp (.arrayOf [sampleNote])).notes ≠ [] ∧
    (clearAll true (loadApp (.arrayOf [sampleNote]))).storage = StoredPayload.arrayOf [] ∧
    StoredPayload.arrayOf [] ≠ StoredPayload.absent := by
  decide

/-! ### C8: malformed or non-array payloads load as absent -/

/-- C8.  A malformed (unparsable) payload and a non-array payload both
yield the same in-memory startup state as an absent record: empty
collection, counter 1, idle drag session, tutorial shown; loadApp is
total, so no error is raised. -/
theorem malformed_payload_empty_load :
    (loadApp .malformed).notes = [] ∧
    (loadApp .nonArray).notes = [] ∧
    (loadApp .malformed).maxZIndex = (loadApp .absent).maxZIndex ∧
    (loadApp .nonArray).maxZIndex = (loadApp .absent).maxZIndex ∧
    (loadApp .malformed).dragState = (loadApp .absent).dragState ∧
    (loadApp .nonArray).dragState = (loadApp .absent).dragState ∧
    (loadApp .malformed).showTutorial = (loadApp .absent).showTutorial ∧
    (loadApp .nonArray).showTutorial = (loadApp .absent).showTutorial := by
  decide

/-! ### C2: operations on an absent identifier -/

/-- C2 counterexample.  The claim includes bringToFront among the
operations that leave the whole state, maxStackOrder included,
unchanged when the identifier is absent.  But the early return in
bringToFront (page.tsx line 130) requires the note to be found, so on
an absent id the function falls through and advances maxZIndex. -/
theorem bringToFront_absent_id_increments_counter :
    ((loadApp .absent).notes.find? fun n => n.id == "x") = none ∧
    (bringToFront "x" (loadApp .absent)).maxZIndex ≠ (loadApp .absent).maxZIndex := by
  decide

/-- C2 amended.  For an identifier absent from the collection,
updateNoteContent, updateNoteColor and deleteNote leave every note and
the maxZIndex counter unchanged, and bringToFront leaves every note
unchanged but increments maxZIndex by one; none of them can throw
(all four are total functions). -/
theorem absent_id_ops_noop (s : AppState) (id text : String) (c : NoteColor)
    (h : (s.notes.find? fun n => n.id == id) = none) :
    (updateNoteContent id text s).notes = s.notes ∧
    (updateNoteContent id text s).maxZIndex = s.maxZIndex ∧
    (updateNoteColor id c s).notes = s.notes ∧
    (updateNoteColor id c s).maxZIndex = s.maxZIndex ∧
    (deleteNote id s).notes = s.notes ∧
    (deleteNote id s).maxZIndex = s.maxZIndex ∧
    (bringToFront id s).notes = s.notes ∧
    (bringToFront id s).maxZIndex = s.maxZIndex + 1 := by
  have hall : ∀ n ∈ s.notes, (n.id == id) = false := by
    intro n hn
    have := List.find?_eq_none.mp h n hn
    simpa using this
  have hmap : ∀ f : Note → Note,
      (s.notes.map fun n => if n.id == id then f n else n) = s.notes := by
    intro f
    exact map_id_on _ _ fun n hn => by rw [hall n hn]; simp
  refine ⟨?_, ?_, ?_, ?_, ?_, ?_, ?_, ?_⟩
  · simpa [updateNoteContent] using hmap _
  · simp [updateNoteContent]
  · simpa [updateNoteColor] using hmap _
  · simp [updateNoteColor]
  · simp only [deleteNote, saveEffect_notes]
    exact List.filter_eq_self.mpr fun n hn => by rw [hall n hn]; simp
  · simp [deleteNote]
  · rw [bringToFront_guard_false _ _ (by simp [h])]
    simpa using hmap _
  · rw [bringToFront_guard_false _ _ (by simp [h])]
    simp

/-- C2 witness: the amended statement at a concrete loaded state with
one note and the absent identifier "x". -/
theorem absent_id_ops_noop_witness :
    (updateNoteContent "x" "t" (loadApp (.arrayOf [sampleNote]))).notes
      = (loadApp (.arrayOf [sampleNote])).notes ∧
    (updateNoteContent "x" "t" (loadApp (.arrayOf [sampleNote]))).maxZIndex
      = (loadApp (.arrayOf [sampleNote])).maxZIndex ∧
    (updateNoteColor "x" NoteColor.blue (loadApp (.arrayOf [sampleNote]))).notes
      = (loadApp (.arrayOf [sampleNote])).notes ∧
    (updateNoteColor "x" NoteColor.blue (loadApp (.arrayOf [sampleNote]))).maxZIndex
      = (loadApp (.arrayOf [sampleNote])).maxZIndex ∧
    (deleteNote "x" (loadApp (.arrayOf [sampleNote]))).notes
      = (loadApp (.arrayOf [sampleNote])).notes ∧
    (deleteNote "x" (loadApp (.arrayOf [sampleNote]))).maxZIndex
      = (loadApp (.arrayOf [sampleNote])).maxZIndex ∧
    (bringToFront "x" (loadApp (.arrayOf [sampleNote]))).notes
      = (loadApp (.arrayOf [sampleNote])).notes ∧
    (bringToFront "x" (loadApp (.arrayOf [sampleNote]))).maxZIndex
      = (loadApp (.arrayOf [sampleNote])).maxZIndex + 1 :=
  absent_id_ops_noop (loadApp (.arrayOf [sampleNote])) "x" "t" NoteColor.blue (by decide)

/-! ### C7: idempotence of bringToFront -/

/-- C7 counterexample.  The claim quantifies over every state and
identifier; with an absent identifier each of two successive
bringToFront calls advances maxZIndex, so the second call does change
the state. -/
theorem bringToFront_absent_not_idempotent :
    bringToFront "x" (bringToFront "x" (loadApp .absent))
      ≠ bringToFront "x" (loadApp .absent) := by
  decide

/-- C7 amended.  When the identifier is present in the collection,
bringToFront is idempotent: the second of two successive calls returns
its input state unchanged (in particular neither maxZIndex nor any
note's zIndex moves). -/
theorem bringToFront_idempotent_present (s : AppState) (id : String) (t : Note)
    (h : (s.notes.find? fun n => n.id == id) = some t) :
    bringToFront id (bringToFront id s) = bringToFront id s := by
  have hpt : (t.id == id) = true := by
    have h2 := List.find?_some h
    simpa using h2
  by_cases hz : t.zIndex = s.maxZIndex
  · have hg : ((s.notes.find? fun n => n.id == id).any fun u => u.zIndex == s.maxZIndex)
        = true := by
      simp [h, hz]
    rw [bringToFront_guard_true _ _ hg, bringToFront_guard_true _ _ hg]
  · have hg : ((s.notes.find? fun n => n.id == id).any fun u => u.zIndex == s.maxZIndex)
        = false := by
      simp [h, hz]
    rw [bringToFront_guard_false _ _ hg]
    apply bringToFront_guard_true
    have hfid : ∀ n : Note,
        ((if n.id == id then { n with zIndex := s.maxZIndex + 1 } else n) : Note).id
          = n.id := by
      intro n; split <;> rfl
    simp only [saveEffect_notes, saveEffect_maxZIndex]
    rw [find?_map_id_pres s.notes id
        (fun n => if n.id == id then { n with zIndex := s.maxZIndex + 1 } else n) hfid, h]
    show ((if (t.id == id) = true then { t with zIndex := s.maxZIndex + 1 } else t).zIndex
        == s.maxZIndex + 1) = true
    rw [if_pos hpt]
    simp

/-- C7 witness: idempotence at a concrete loaded one-note state whose
note "a" is present (and initially below the counter). -/
theorem bringToFront_idempotent_present_witness :
    bringToFront "a" (bringToFront "a" (loadApp (.arrayOf [sampleNote])))
      = bringToFront "a" (loadApp (.arrayOf [sampleNote])) :=
  bringToFront_idempotent_present (loadApp (.arrayOf [sampleNote])) "a" sampleNote (by decide)

/-! ### C3: drag-start and the stack -/

/-- A state whose only note already carries the maximal stack value. -/
def frontState : AppState :=
  { notes := [{ sampleNote with zIndex := 5 }], maxZIndex := 5,
    dragState := initialDragState, showTutorial := false, storage := .absent }

/-- C3 counterexample.  The claim says drag-start assigns a new,
strictly larger stack value even when the note is already at
maxStackOrder.  In the code handleDragStart simply calls bringToFront
(page.tsx line 155), which short-circuits for a note already at the
front: here a drag starts on such a note (the session activates) yet
neither any zIndex nor maxZIndex changes. -/
theorem dragStart_at_front_no_reorder :
    frontState.notes.map Note.zIndex = [frontState.maxZIndex] ∧
    (handleDragStart 0 0 "a" frontState).dragState.isDragging = true ∧
    (handleDragStart 0 0 "a" frontState).notes = frontState.notes ∧
    (handleDragStart 0 0 "a" frontState).maxZIndex = frontState.maxZIndex := by
  decide

/-- C3 amended.  Drag-start on an existing note activates the session
with the pointer anchor and the note's position, and reorders exactly
as bringToFront does: a note whose zIndex is below maxZIndex is
assigned the strictly larger value maxZIndex + 1 (which becomes the
new counter), while a note already at maxZIndex is left unchanged -
drag-start inherits the fast path rather than reordering
unconditionally. -/
theorem dragStart_reorders_via_bringToFront (s : AppState) (cx cy : ℚ) (id : String)
    (t : Note) (h : (s.notes.find? fun n => n.id == id) = some t) :
    (handleDragStart cx cy id s).dragState =
      { isDragging := true, noteId := some id, startX := cx, startY := cy,
        initialNoteX := t.x, initialNoteY := t.y } ∧
    (t.zIndex = s.maxZIndex →
      (handleDragStart cx cy id s).notes = s.notes ∧
      (handleDragStart cx cy id s).maxZIndex = s.maxZIndex) ∧
    (t.zIndex ≠ s.maxZIndex →
      (handleDragStart cx cy id s).maxZIndex = s.maxZIndex + 1 ∧
      ∀ n ∈ (handleDragStart cx cy id s).notes, n.id = id → n.zIndex = s.maxZIndex + 1) := by
  have hds : handleDragStart cx cy id s =
      { bringToFront id s with dragState :=
        { isDragging := true, noteId := some id, startX := cx, startY := cy,
          initialNoteX := t.x, initialNoteY := t.y } } := by
    unfold handleDragStart
    rw [h]
  refine ⟨by rw [hds], ?_, ?_⟩
  · intro hz
    have hg : ((s.notes.find? fun n => n.id == id).any fun u => u.zIndex == s.maxZIndex)
        = true := by
      simp [h, hz]
    rw [hds, bringToFront_guard_true _ _ hg]
    exact ⟨rfl, rfl⟩
  · intro hz
    have hg : ((s.notes.find? fun n => n.id == id).any fun u => u.zIndex == s.maxZIndex)
        = false := by
      simp [h, hz]
    rw [hds, bringToFront_guard_false _ _ hg]
    constructor
    · simp
    · intro n hn hid
      simp only [saveEffect_notes, List.mem_map] at hn
      obtain ⟨m, hm, rfl⟩ := hn
      by_cases hmid : (m.id == id) = true
      · simp [hmid]
      · simp only [hmid] at hid ⊢
        simp only [Bool.false_eq_true, if_false] at hid
        exact absurd hid (by simpa using hmid)

/-- C3 witness: the amended statement at a loaded one-note state whose
note "a" sits below the counter, so drag-start advances the counter. -/
theorem dragStart_reorders_via_bringToFront_witness :
    (handleDragStart 0 0 "a" (loadApp (.arrayOf [sampleNote]))).maxZIndex
      = (loadApp (.arrayOf [sampleNote])).maxZIndex + 1 :=
  ((dragStart_reorders_via_bringToFront (loadApp (.arrayOf [sampleNote])) 0 0 "a" sampleNote
      (by decide)).2.2 (by decide)).1

/-! ### C4: drag session teardown -/

lemma handleMouseMove_guard_true (x y : ℚ) (s : AppState)
    (hg : (!s.dragState.isDragging) = true ∨ noteIdFalsy s.dragState.noteId = true) :
    handleMouseMove x y s = s := by
  unfold handleMouseMove
  rw [if_pos hg]

lemma handleMouseMove_eq (x y : ℚ) (s : AppState) (nid : String)
    (hn : s.dragState.noteId = some nid)
    (hd : s.dragState.isDragging = true) (hne : (nid == "") = false) :
    handleMouseMove x y s =
      saveEffect { s with notes := s.notes.map fun n =>
        if n.id == nid then
          { n with x := s.dragState.initialNoteX + (x - s.dragState.startX),
                   y := s.dragState.initialNoteY + (y - s.dragState.startY) }
        else n } := by
  unfold handleMouseMove
  rw [if_neg (by simp [hd, hn, noteIdFalsy, hne]), hn]

/-- The drag session active on note "a" at position 0 that the C4
counterexample and witness exercise. -/
def activeDragState : AppState :=
  { notes := [{ sampleNote with x := 0 }], maxZIndex := 2,
    dragState := { isDragging := true, noteId := some "a", startX := 0, startY := 0,
                   initialNoteX := 0, initialNoteY := 0 },
    showTutorial := false, storage := .absent }

/-- C4 counterexample.  The claim says the session is destroyed on
pointer-cancel, touch-end, pointer-up, or on deleteNote of the target,
and that afterwards no position changes occur.  The component
registers no pointercancel or touchcancel listener (page.tsx lines
211-230), so those events leave the session active and a later move
still repositions the note; deleteNote (page.tsx lines 124-126) never
touches dragState, so the session also survives deletion of its
target. -/
theorem drag_session_survives_cancel_and_delete :
    (deleteNote "a" activeDragState).dragState.isDragging = true ∧
    (dispatch .pointerCancel activeDragState).dragState.isDragging = true ∧
    (dispatch .touchCancel activeDragState).dragState.isDragging = true ∧
    (dispatch (.mouseMove 10 0) (dispatch .pointerCancel activeDragState)).notes.map Note.x
      = [10] ∧
    activeDragState.notes.map Note.x = [0] := by
  refine ⟨by decide, by decide, by decide, ?_, by decide⟩
  have h1 : dispatch (.mouseMove 10 0) (dispatch .pointerCancel activeDragState)
      = handleMouseMove 10 0 activeDragState := rfl
  rw [h1, handleMouseMove_eq 10 0 activeDragState "a" rfl rfl rfl]
  simp [activeDragState, sampleNote]

/-- C4 amended.  Mouse-up and touch-end do destroy the session, and a
move dispatched after either is a complete no-op.  Deleting the
dragged note does not reset the session, but every note position is
still stable under later moves of that gesture, because no remaining
note bears the dragged identifier.  (Pointer-cancel and touch-cancel
have no listener and so neither destroy the session nor stop
subsequent moves.) -/
theorem drag_session_teardown (s : AppState) (x y : ℚ) (nid : String)
    (h : s.dragState.noteId = some nid) :
    (dispatch .mouseUp s).dragState.isDragging = false ∧
    (dispatch .touchEnd s).dragState.isDragging = false ∧
    dispatch (.mouseMove x y) (dispatch .mouseUp s) = dispatch .mouseUp s ∧
    dispatch (.touchMove x y) (dispatch .touchEnd s) = dispatch .touchEnd s ∧
    (dispatch (.mouseMove x y) (deleteNote nid s)).notes = (deleteNote nid s).notes := by
  have hup : ∀ st : AppState, (handleMouseUp st).dragState.isDragging = false := by
    intro st
    unfold handleMouseUp
    split
    · rfl
    · next hnd => simpa using hnd
  have hafter : ∀ st : AppState, handleMouseMove x y (handleMouseUp st) = handleMouseUp st := by
    intro st
    apply handleMouseMove_guard_true
    left
    simp [hup st]
  refine ⟨hup s, hup s, hafter s, hafter s, ?_⟩
  show (handleMouseMove x y (deleteNote nid s)).notes = (deleteNote nid s).notes
  have hDdrag : (deleteNote nid s).dragState = s.dragState := by
    simp [deleteNote]
  by_cases hd : s.dragState.isDragging = true
  · by_cases hne : (nid == "") = true
    · rw [handleMouseMove_guard_true x y _
        (Or.inr (by rw [hDdrag, h]; simpa [noteIdFalsy] using hne))]
    · rw [handleMouseMove_eq x y _ nid (by rw [hDdrag]; exact h) (by rw [hDdrag]; exact hd)
        (by simpa using hne)]
      simp only [saveEffect_notes]
      apply map_id_on
      intro n hn
      have hnid : (n.id == nid) = false := by
        have hn2 : n ∈ s.notes.filter fun m => !(m.id == nid) := by
          simpa [deleteNote] using hn
        have := (List.mem_filter.mp hn2).2
        simpa using this
      rw [hnid]
      simp
  · rw [handleMouseMove_guard_true x y _ (Or.inl (by rw [hDdrag]; simpa using hd))]

/-- C4 witness: the amended statement at the concrete active-drag
state, deleting the dragged note "a". -/
theorem drag_session_teardown_witness :
    (dispatch (.mouseMove 5 5) (deleteNote "a" activeDragState)).notes
      = (deleteNote "a" activeDragState).notes :=
  (drag_session_teardown activeDragState 5 5 "a" rfl).2.2.2.2

/-! ### C5: absolute repositioning during a drag -/

lemma AppState.ext_of (a b : AppState) (h1 : a.notes = b.notes)
    (h2 : a.maxZIndex = b.maxZIndex) (h3 : a.dragState = b.dragState)
    (h4 : a.showTutorial = b.showTutorial) (h5 : a.storage = b.storage) : a = b := by
  cases a; cases b; simp_all

lemma saveEffect_storage (s : AppState) :
    (saveEffect s).storage =
      if 0 < s.notes.length ∨ s.showTutorial = false then .arrayOf s.notes
      else s.storage := by
  unfold saveEffect
  split <;> simp_all

/-- Re-repositioning the same target collapses to the last
repositioning: position writes are absolute, not cumulative. -/
lemma map_absorb (l : List Note) (nid : String) (a b c d : ℚ) :
    ((l.map fun n => if n.id == nid then { n with x := a, y := b } else n).map
      fun n => if n.id == nid then { n with x := c, y := d } else n)
    = l.map fun n => if n.id == nid then { n with x := c, y := d } else n := by
  induction l with
  | nil => rfl
  | cons m l ih =>
      simp only [List.map_cons]
      rw [ih]
      by_cases hm : (m.id == nid) = true
      · simp [hm]
      · simp [hm]

lemma move_guard_cases (s : AppState)
    (hg : ¬ ((!s.dragState.isDragging) = true ∨ noteIdFalsy s.dragState.noteId = true)) :
    s.dragState.isDragging = true ∧
    ∃ nid, s.dragState.noteId = some nid ∧ (nid == "") = false := by
  push_neg at hg
  obtain ⟨h1, h2⟩ := hg
  refine ⟨by simpa using h1, ?_⟩
  cases hnid : s.dragState.noteId with
  | none => rw [hnid] at h2; simp [noteIdFalsy] at h2
  | some nid =>
      rw [hnid] at h2
      exact ⟨nid, rfl, by simpa [noteIdFalsy] using h2⟩

/-- Any earlier move of the same gesture is absorbed by the next one:
the handler reads only the (unchanged) session anchor, never the
note's current position. -/
lemma handleMouseMove_absorb (x y x2 y2 : ℚ) (s : AppState) :
    handleMouseMove x y (handleMouseMove x2 y2 s) = handleMouseMove x y s := by
  by_cases hg : (!s.dragState.isDragging) = true ∨ noteIdFalsy s.dragState.noteId = true
  · rw [handleMouseMove_guard_true x2 y2 s hg]
  · obtain ⟨hd, nid, hnid, hne⟩ := move_guard_cases s hg
    rw [handleMouseMove_eq x2 y2 s nid hnid hd hne]
    rw [handleMouseMove_eq x y _ nid (by simp [hnid]) (by simp [hd]) hne]
    rw [handleMouseMove_eq x y s nid hnid hd hne]
    apply AppState.ext_of
    · simp only [saveEffect_notes, saveEffect_dragState]
      exact map_absorb s.notes nid _ _ _ _
    · simp
    · simp
    · simp
    · rw [saveEffect_storage, saveEffect_storage]
      simp only [saveEffect_notes, saveEffect_dragState, saveEffect_showTutorial,
        saveEffect_storage, List.length_map]
      by_cases hc : 0 < s.notes.length ∨ s.showTutorial = false
      · rw [if_pos (by simpa using hc), if_pos (by simpa using hc)]
        simp only [map_absorb]
      · rw [if_neg (by simpa using hc), if_neg (by simpa using hc),
          if_neg (by simpa using hc)]

lemma applyMoves_append_last (ps : List (ℚ × ℚ)) (p : ℚ × ℚ) (s : AppState) :
    applyMoves (ps ++ [p]) s = handleMouseMove p.1 p.2 s := by
  induction ps generalizing s with
  | nil => rfl
  | cons q ps ih =>
      show applyMoves (ps ++ [p]) (handleMouseMove q.1 q.2 s) = handleMouseMove p.1 p.2 s
      rw [ih (handleMouseMove q.1 q.2 s), handleMouseMove_absorb]

lemma forall2_map_right {R : Note → Note → Prop} (l : List Note) (f : Note → Note)
    (h : ∀ n ∈ l, R n (f n)) : List.Forall₂ R l (l.map f) := by
  induction l with
  | nil => exact List.Forall₂.nil
  | cons a l ih =>
      exact List.Forall₂.cons (h a (by simp)) (ih fun n hn => h n (by simp [hn]))

/-- An active session whose target identifier is the empty string,
reachable by loading a persisted array containing such a record and
starting a drag on it. -/
def emptyIdDragState : AppState :=
  { notes := [{ sampleNote with id := "", x := 5 }], maxZIndex := 2,
    dragState := { isDragging := true, noteId := some "", startX := 0, startY := 0,
                   initialNoteX := 5, initialNoteY := 0 },
    showTutorial := false, storage := .absent }

/-- C5 counterexample.  The claim quantifies over every drag session.
For a session whose target identifier is the empty string the guard
!dragState.noteId (page.tsx line 179) is truthy - the empty string is
falsy in JavaScript - so the handler returns early: after a move to
pointer x = 10 the target's x is still 5, not
anchorNotePosition + (10 - anchorPointerPosition) = 15. -/
theorem move_ignores_empty_id_session :
    emptyIdDragState.dragState.isDragging = true ∧
    emptyIdDragState.dragState.noteId = some "" ∧
    emptyIdDragState.notes.map Note.id = [""] ∧
    (handleMouseMove 10 0 emptyIdDragState).notes.map Note.x = [5] ∧
    emptyIdDragState.dragState.initialNoteX
      + ((10 : ℚ) - emptyIdDragState.dragState.startX) = 15 ∧
    (5 : ℚ) ≠ 15 := by
  refine ⟨by decide, by decide, by decide, by decide, ?_, by norm_num⟩
  show (5 : ℚ) + ((10 : ℚ) - 0) = 15
  norm_num

/-- C5 amended.  For every drag session whose target identifier is a
non-empty string, any sequence of moves followed by a move to p ends
exactly where the single move to p would: each target note's position
is the session anchor plus (p - anchor pointer), independent of the
earlier moves, and every non-target note keeps its position; id,
content, color, zIndex, width and height of every note are untouched.
(A session targeting the empty-string identifier is skipped by the
handler's truthiness guard.) -/
theorem drag_move_absolute (s : AppState) (nid : String) (ps : List (ℚ × ℚ)) (p : ℚ × ℚ)
    (hd : s.dragState.isDragging = true)
    (hn : s.dragState.noteId = some nid)
    (hne : nid ≠ "") :
    applyMoves (ps ++ [p]) s = handleMouseMove p.1 p.2 s ∧
    List.Forall₂ (fun n m =>
      m.id = n.id ∧ m.content = n.content ∧ m.color = n.color ∧
      m.zIndex = n.zIndex ∧ m.width = n.width ∧ m.height = n.height ∧
      (n.id = nid →
        m.x = s.dragState.initialNoteX + (p.1 - s.dragState.startX) ∧
        m.y = s.dragState.initialNoteY + (p.2 - s.dragState.startY)) ∧
      (n.id ≠ nid → m.x = n.x ∧ m.y = n.y))
      s.notes (handleMouseMove p.1 p.2 s).notes := by
  have hneb : (nid == "") = false := by simpa using hne
  constructor
  · exact applyMoves_append_last ps p s
  · rw [handleMouseMove_eq p.1 p.2 s nid hn hd hneb]
    simp only [saveEffect_notes]
    apply forall2_map_right
    intro n hmem
    by_cases hc : (n.id == nid) = true
    · have hceq : n.id = nid := by simpa using hc
      simp [hc, hceq]
    · have hcne : ¬ n.id = nid := by simpa using hc
      simp [hc, hcne]

/-- A well-formed active session on note "a", anchored at note
position (5, 0) and pointer (0, 0). -/
def liveDragState : AppState :=
  { notes := [{ sampleNote with x := 5, y := 0 }], maxZIndex := 2,
    dragState := { isDragging := true, noteId := some "a", startX := 0, startY := 0,
                   initialNoteX := 5, initialNoteY := 0 },
    showTutorial := false, storage := .absent }

/-- C5 witness: skipping the intermediate move to (1, 1) does not
change where the move to (10, 5) puts the session's note. -/
theorem drag_move_absolute_witness :
    applyMoves ([((1 : ℚ), (1 : ℚ))] ++ [((10 : ℚ), (5 : ℚ))]) liveDragState
      = handleMouseMove 10 5 liveDragState :=
  (drag_move_absolute liveDragState "a" [(1, 1)] (10, 5) rfl rfl (by decide)).1

/-! ### C6: the stacking invariant -/

lemma le_foldl_max (l : List Note) (init : Int) :
    init ≤ l.foldl (fun mx note => max mx (if note.zIndex = 0 then 1 else note.zIndex)) init := by
  induction l generalizing init with
  | nil => exact le_refl _
  | cons a l ih =>
      simp only [List.foldl_cons]
      exact le_trans (le_max_left _ _) (ih _)

lemma mem_le_foldl_max (l : List Note) (init : Int) :
    ∀ n ∈ l, (if n.zIndex = 0 then 1 else n.zIndex)
      ≤ l.foldl (fun mx note => max mx (if note.zIndex = 0 then 1 else note.zIndex)) init := by
  induction l generalizing init with
  | nil => intro n hn; cases hn
  | cons a l ih =>
      intro n hn
      simp only [List.foldl_cons]
      rcases List.mem_cons.mp hn with rfl | hmem
      · exact le_trans (le_max_right _ _) (le_foldl_max _ _)
      · exact ih _ n hmem

lemma stackInv_loadApp (p : StoredPayload) : StackInv (loadApp p) := by
  cases p with
  | arrayOf parsed =>
      intro n hn
      have h1 := mem_le_foldl_max parsed 1 n hn
      show n.zIndex ≤ _ + 1
      by_cases hz : n.zIndex = 0
      · rw [if_pos hz] at h1
        omega
      · rw [if_neg hz] at h1
        omega
  | absent => intro n hn; simp [loadApp] at hn
  | malformed => intro n hn; simp [loadApp] at hn
  | nonArray => intro n hn; simp [loadApp] at hn

lemma addNote_notes_eq (newId : String) (rx ry rc : ℚ) (s : AppState) :
    (addNote newId rx ry rc s).notes
      = s.notes ++ [mkNote ⟨newId, rx, ry, rc⟩ (s.maxZIndex + 1)] := by
  simp only [addNote, saveEffect_notes]
  rfl

lemma addNote_maxZIndex_eq (newId : String) (rx ry rc : ℚ) (s : AppState) :
    (addNote newId rx ry rc s).maxZIndex = s.maxZIndex + 1 := by
  simp only [addNote, saveEffect_maxZIndex]

lemma stackInv_addNote (newId : String) (rx ry rc : ℚ) (s : AppState)
    (h : StackInv s) : StackInv (addNote newId rx ry rc s) := by
  intro n hn
  rw [addNote_notes_eq] at hn
  rw [addNote_maxZIndex_eq]
  rcases List.mem_append.mp hn with hmem | hmem
  · exact le_trans (h n hmem) (by omega)
  · rw [List.mem_singleton.mp hmem]
    exact le_refl _

lemma stackInv_updateNoteContent (id text : String) (s : AppState)
    (h : StackInv s) : StackInv (updateNoteContent id text s) := by
  intro n hn
  simp only [updateNoteContent, saveEffect_notes, saveEffect_maxZIndex, List.mem_map] at hn ⊢
  obtain ⟨m, hm, rfl⟩ := hn
  have hz := h m hm
  split <;> simpa using hz

lemma stackInv_updateNoteColor (id : String) (c : NoteColor) (s : AppState)
    (h : StackInv s) : StackInv (updateNoteColor id c s) := by
  intro n hn
  simp only [updateNoteColor, saveEffect_notes, saveEffect_maxZIndex, List.mem_map] at hn ⊢
  obtain ⟨m, hm, rfl⟩ := hn
  have hz := h m hm
  split <;> simpa using hz

lemma stackInv_deleteNote (id : String) (s : AppState)
    (h : StackInv s) : StackInv (deleteNote id s) := by
  intro n hn
  simp only [deleteNote, saveEffect_notes, saveEffect_maxZIndex, List.mem_filter] at hn ⊢
  exact h n hn.1

lemma stackInv_bringToFront (id : String) (s : AppState)
    (h : StackInv s) : StackInv (bringToFront id s) := by
  by_cases hg : ((s.notes.find? fun n => n.id == id).any fun u => u.zIndex == s.maxZIndex)
      = true
  · rw [bringToFront_guard_true _ _ hg]
    exact h
  · rw [bringToFront_guard_false _ _ (by simpa using hg)]
    intro n hn
    simp only [saveEffect_notes, saveEffect_maxZIndex, List.mem_map] at hn ⊢
    obtain ⟨m, hm, rfl⟩ := hn
    have hz := h m hm
    split
    · exact le_refl _
    · exact le_trans hz (by omega)

lemma stackInv_clearAll (confirmed : Bool) (s : AppState)
    (h : StackInv s) : StackInv (clearAll confirmed s) := by
  unfold clearAll
  split
  · intro n hn
    simp at hn
  · exact h

lemma stackInv_handleDragStart (cx cy : ℚ) (id : String) (s : AppState)
    (h : StackInv s) : StackInv (handleDragStart cx cy id s) := by
  cases hf : (s.notes.find? fun n => n.id == id) with
  | none =>
      unfold handleDragStart
      rw [hf]
      exact h
  | some t =>
      unfold handleDragStart
      rw [hf]
      intro n hn
      exact stackInv_bringToFront id s h n hn

lemma stackInv_handleMouseMove (x y : ℚ) (s : AppState)
    (h : StackInv s) : StackInv (handleMouseMove x y s) := by
  by_cases hg : (!s.dragState.isDragging) = true ∨ noteIdFalsy s.dragState.noteId = true
  · rw [handleMouseMove_guard_true _ _ _ hg]
    exact h
  · obtain ⟨hd, nid, hnid, hne⟩ := move_guard_cases s hg
    rw [handleMouseMove_eq x y s nid hnid hd hne]
    intro n hn
    simp only [saveEffect_notes, saveEffect_maxZIndex, List.mem_map] at hn ⊢
    obtain ⟨m, hm, rfl⟩ := hn
    have hz := h m hm
    split <;> simpa using hz

lemma stackInv_handleMouseUp (s : AppState)
    (h : StackInv s) : StackInv (handleMouseUp s) := by
  unfold handleMouseUp
  split
  · intro n hn
    exact h n hn
  · exact h

lemma stackInv_dispatch (e : UiEvent) (s : AppState)
    (h : StackInv s) : StackInv (dispatch e s) := by
  cases e with
  | mouseMove x y => exact stackInv_handleMouseMove x y s h
  | touchMove x y => exact stackInv_handleMouseMove x y s h
  | mouseUp => exact stackInv_handleMouseUp s h
  | touchEnd => exact stackInv_handleMouseUp s h
  | touchCancel => exact h
  | pointerCancel => exact h

lemma stackInv_reachable (s : AppState) (h : Reachable s) : StackInv s := by
  induction h with
  | loaded p => exact stackInv_loadApp p
  | add newId rx ry rc _ ih => exact stackInv_addNote newId rx ry rc _ ih
  | content id text _ ih => exact stackInv_updateNoteContent id text _ ih
  | recolor id c _ ih => exact stackInv_updateNoteColor id c _ ih
  | remove id _ ih => exact stackInv_deleteNote id _ ih
  | toFront id _ ih => exact stackInv_bringToFront id _ ih
  | wipe confirmed _ ih => exact stackInv_clearAll confirmed _ ih
  | dragStart cx cy id _ ih => exact stackInv_handleDragStart cx cy id _ ih
  | event e _ ih => exact stackInv_dispatch e _ ih

lemma bringToFront_fresh (s : AppState) (id : String)
    (hg : ((s.notes.find? fun n => n.id == id).any fun u => u.zIndex == s.maxZIndex)
      = false) :
    (bringToFront id s).maxZIndex = s.maxZIndex + 1 ∧
    ∀ n ∈ (bringToFront id s).notes, n.id = id → n.zIndex = s.maxZIndex + 1 := by
  rw [bringToFront_guard_false _ _ hg]
  constructor
  · simp
  · intro n hn hid
    simp only [saveEffect_notes, List.mem_map] at hn
    obtain ⟨m, hm, rfl⟩ := hn
    by_cases hmid : (m.id == id) = true
    · simp [hmid]
    · simp only [hmid, Bool.false_eq_true, if_false] at hid ⊢
      exact absurd hid (by simpa using hmid)

/-- C6.  In every reachable state the counter maxZIndex dominates
every note's zIndex; and both front-bringing operations assign a
strictly larger stack value that becomes the new counter: bringToFront
past its fast path assigns maxZIndex + 1 to the target and to the
counter (preserving the invariant), and addNote stamps the new note
with the incremented counter. -/
theorem stack_order_invariant (s : AppState) (h : Reachable s) :
    StackInv s ∧
    (∀ id t, (s.notes.find? fun n => n.id == id) = some t → t.zIndex ≠ s.maxZIndex →
      (bringToFront id s).maxZIndex = s.maxZIndex + 1 ∧
      s.maxZIndex < (bringToFront id s).maxZIndex ∧
      StackInv (bringToFront id s) ∧
      (∀ n ∈ (bringToFront id s).notes, n.id = id →
        n.zIndex = (bringToFront id s).maxZIndex)) ∧
    (∀ newId rx ry rc, (addNote newId rx ry rc s).maxZIndex = s.maxZIndex + 1 ∧
      s.maxZIndex < (addNote newId rx ry rc s).maxZIndex ∧
      ∃ n ∈ (addNote newId rx ry rc s).notes,
        n.zIndex = (addNote newId rx ry rc s).maxZIndex) := by
  have hinv := stackInv_reachable s h
  refine ⟨hinv, ?_, ?_⟩
  · intro id t hf hz
    have hg : ((s.notes.find? fun n => n.id == id).any fun u => u.zIndex == s.maxZIndex)
        = false := by
      simp [hf, hz]
    obtain ⟨hmax, hassign⟩ := bringToFront_fresh s id hg
    refine ⟨hmax, by omega, stackInv_bringToFront id s hinv, ?_⟩
    intro n hn hid
    rw [hmax]
    exact hassign n hn hid
  · intro newId rx ry rc
    refine ⟨addNote_maxZIndex_eq newId rx ry rc s, ?_, ?_⟩
    · rw [addNote_maxZIndex_eq]
      omega
    · refine ⟨mkNote ⟨newId, rx, ry, rc⟩ (s.maxZIndex + 1), ?_, ?_⟩
      · rw [addNote_notes_eq]
        simp
      · rw [addNote_maxZIndex_eq]
        simp [mkNote]

/-- C6 witness: the invariant and the counter advance at a concrete
loaded one-note state. -/
theorem stack_order_invariant_witness :
    StackInv (loadApp (.arrayOf [sampleNote])) ∧
    (bringToFront "a" (loadApp (.arrayOf [sampleNote]))).maxZIndex
      = (loadApp (.arrayOf [sampleNote])).maxZIndex + 1 := by
  have h := stack_order_invariant (loadApp (.arrayOf [sampleNote])) (Reachable.loaded _)
  exact ⟨h.1, (h.2.1 "a" sampleNote (by decide) (by decide)).1⟩

/-! ### C9: sequences of createNote calls -/

lemma applyAdds_spec (l : List AddInput) (s : AppState) :
    (applyAdds l s).notes = s.notes ++ createdNotes l s.maxZIndex ∧
    (applyAdds l s).maxZIndex = s.maxZIndex + l.length := by
  induction l generalizing s with
  | nil => simp [applyAdds, createdNotes]
  | cons i l ih =>
      have h1 : applyAdds (i :: l) s = applyAdds l (addNote i.id i.rx i.ry i.rc s) := rfl
      rw [h1]
      obtain ⟨hn, hm⟩ := ih (addNote i.id i.rx i.ry i.rc s)
      rw [hn, hm, addNote_notes_eq, addNote_maxZIndex_eq]
      constructor
      · rw [List.append_assoc]
        rfl
      · simp only [List.length_cons]
        omega

lemma createdNotes_map_id (l : List AddInput) (z : Int) :
    (createdNotes l z).map Note.id = l.map AddInput.id := by
  induction l generalizing z with
  | nil => rfl
  | cons i l ih => simp [createdNotes, mkNote, ih]

lemma createdNotes_zIndex_bounds (l : List AddInput) (z : Int) :
    ∀ n ∈ createdNotes l z, z < n.zIndex ∧ n.zIndex ≤ z + l.length := by
  induction l generalizing z with
  | nil => intro n hn; simp [createdNotes] at hn
  | cons i l ih =>
      intro n hn
      simp only [createdNotes, List.mem_cons] at hn
      rcases hn with rfl | hn
      · refine ⟨?_, ?_⟩
        · show z < (mkNote i (z + 1)).zIndex
          simp only [mkNote]
          omega
        · show (mkNote i (z + 1)).zIndex ≤ z + (i :: l).length
          simp only [mkNote, List.length_cons]
          push_cast
          omega
      · obtain ⟨h1, h2⟩ := ih (z + 1) n hn
        simp only [List.length_cons]
        constructor
        · omega
        · push_cast
          omega

lemma createdNotes_pairwise (l : List AddInput) (z : Int) :
    List.Pairwise (fun a b => a.zIndex < b.zIndex) (createdNotes l z) := by
  induction l generalizing z with
  | nil => exact List.Pairwise.nil
  | cons i l ih =>
      refine List.Pairwise.cons ?_ (ih (z + 1))
      intro b hb
      have hlt := (createdNotes_zIndex_bounds l (z + 1) b hb).1
      show (mkNote i (z + 1)).zIndex < b.zIndex
      simpa only [mkNote] using hlt

lemma noteColor_mem_palette (c : NoteColor) : c ∈ COLOR_KEYS := by
  cases c <;> simp [COLOR_KEYS]

lemma createdNotes_fields (l : List AddInput) (z : Int) :
    ∀ n ∈ createdNotes l z,
      n.width = DEFAULT_WIDTH ∧ n.height = DEFAULT_HEIGHT ∧ n.content = "" ∧
      n.color ∈ COLOR_KEYS ∧
      ∃ i ∈ l, n.x = 50 + i.rx * 100 ∧ n.y = 80 + i.ry * 100 := by
  induction l generalizing z with
  | nil => intro n hn; simp [createdNotes] at hn
  | cons i l ih =>
      intro n hn
      simp only [createdNotes, List.mem_cons] at hn
      rcases hn with rfl | hn
      · exact ⟨rfl, rfl, rfl, noteColor_mem_palette _, i, by simp, rfl, rfl⟩
      · obtain ⟨h1, h2, h3, h4, j, hj, hx, hy⟩ := ih (z + 1) n hn
        exact ⟨h1, h2, h3, h4, j, by simp [hj], hx, hy⟩

/-- C9.  Driving addNote with any list of random draws whose UUIDs are
fresh and pairwise distinct and whose position draws lie in [0, 1):
the run appends exactly the created notes in order, all identifiers in
the final collection are distinct, the created notes carry strictly
increasing zIndex values in creation order, and every created note has
the default 220 x 220 size, a palette color, a start position with
x in [50, 150) and y in [80, 180), and a zIndex above every
pre-existing note's. -/
theorem createNote_sequence_spec (s : AppState) (l : List AddInput)
    (hids : ((s.notes.map Note.id) ++ l.map AddInput.id).Nodup)
    (hr : ∀ i ∈ l, 0 ≤ i.rx ∧ i.rx < 1 ∧ 0 ≤ i.ry ∧ i.ry < 1)
    (hinv : StackInv s) :
    (applyAdds l s).notes = s.notes ++ createdNotes l s.maxZIndex ∧
    ((applyAdds l s).notes.map Note.id).Nodup ∧
    List.Pairwise (fun a b => a.zIndex < b.zIndex) (createdNotes l s.maxZIndex) ∧
    ∀ n ∈ createdNotes l s.maxZIndex,
      n.width = DEFAULT_WIDTH ∧ n.height = DEFAULT_HEIGHT ∧
      n.color ∈ COLOR_KEYS ∧
      50 ≤ n.x ∧ n.x < 150 ∧ 80 ≤ n.y ∧ n.y < 180 ∧
      ∀ m ∈ s.notes, m.zIndex < n.zIndex := by
  obtain ⟨hnotes, hmaxtotal⟩ := applyAdds_spec l s
  refine ⟨hnotes, ?_, createdNotes_pairwise l s.maxZIndex, ?_⟩
  · rw [hnotes, List.map_append, createdNotes_map_id]
    exact hids
  · intro n hn
    obtain ⟨h1, h2, h3, h4, i, hi, hx, hy⟩ := createdNotes_fields l s.maxZIndex n hn
    obtain ⟨hrx0, hrx1, hry0, hry1⟩ := hr i hi
    have hb := createdNotes_zIndex_bounds l s.maxZIndex n hn
    refine ⟨h1, h2, h4, ?_, ?_, ?_, ?_, ?_⟩
    · rw [hx]; linarith
    · rw [hx]; linarith
    · rw [hy]; linarith
    · rw [hy]; linarith
    · intro m hm
      exact lt_of_le_of_lt (hinv m hm) hb.1

/-- The first concrete random draw for the C9 witness. -/
def addDraw1 : AddInput := ⟨"u1", 0, 0, 0⟩

/-- The second concrete random draw for the C9 witness. -/
def addDraw2 : AddInput := ⟨"u2", 0, 0, 0⟩

/-- C9 witness: two creations from the empty loaded state append
exactly the two created notes. -/
theorem createNote_sequence_spec_witness :
    (applyAdds [addDraw1, addDraw2] (loadApp .absent)).notes
      = (loadApp .absent).notes
        ++ createdNotes [addDraw1, addDraw2] (loadApp .absent).maxZIndex :=
  (createNote_sequence_spec (loadApp .absent) [addDraw1, addDraw2]
    (by decide) (by decide) (fun n hn => by simp [loadApp] at hn)).1

/-! ### C10: identifier and size are immutable -/

/-- The frame relation of C10: the right note keeps the left note's
identifier and size. -/
def idSizeEq (n m : Note) : Prop := m.id = n.id ∧ m.width = n.width ∧ m.height = n.height

lemma forall2_idSizeEq_same (l : List Note) : List.Forall₂ idSizeEq l l :=
  List.forall₂_same.mpr fun _ _ => ⟨rfl, rfl, rfl⟩

/-- C10.  Every operation preserves each surviving note's id, width
and height: the content, color, stacking and drag handlers rewrite
notes pointwise without touching those fields, deleteNote only keeps
notes exactly as they were, and addNote appends the single new note
after the untouched existing ones. -/
theorem id_size_immutable (s : AppState) (id text : String) (c : NoteColor)
    (newId : String) (rx ry rc cx cy : ℚ) :
    List.Forall₂ idSizeEq s.notes (updateNoteContent id text s).notes ∧
    List.Forall₂ idSizeEq s.notes (updateNoteColor id c s).notes ∧
    List.Forall₂ idSizeEq s.notes (bringToFront id s).notes ∧
    List.Forall₂ idSizeEq s.notes (handleMouseMove cx cy s).notes ∧
    List.Forall₂ idSizeEq s.notes (handleDragStart cx cy id s).notes ∧
    (∀ n ∈ (deleteNote id s).notes, n ∈ s.notes) ∧
    (addNote newId rx ry rc s).notes
      = s.notes ++ [mkNote ⟨newId, rx, ry, rc⟩ (s.maxZIndex + 1)] := by
  have hmapR : ∀ f : Note → Note, (∀ n, idSizeEq n (f n)) →
      List.Forall₂ idSizeEq s.notes (s.notes.map f) := fun f hf =>
    forall2_map_right s.notes f fun n _ => hf n
  have hbring : List.Forall₂ idSizeEq s.notes (bringToFront id s).notes := by
    by_cases hg : ((s.notes.find? fun n => n.id == id).any fun u => u.zIndex == s.maxZIndex)
        = true
    · rw [bringToFront_guard_true _ _ hg]
      exact forall2_idSizeEq_same s.notes
    · rw [bringToFront_guard_false _ _ (by simpa using hg)]
      simp only [saveEffect_notes]
      apply hmapR
      intro n
      by_cases hn : (n.id == id) = true
      · simp [idSizeEq, hn]
      · simp [idSizeEq, hn]
  have hmove : List.Forall₂ idSizeEq s.notes (handleMouseMove cx cy s).notes := by
    by_cases hg : (!s.dragState.isDragging) = true ∨ noteIdFalsy s.dragState.noteId = true
    · rw [handleMouseMove_guard_true _ _ _ hg]
      exact forall2_idSizeEq_same s.notes
    · obtain ⟨hd, nid, hnid, hne⟩ := move_guard_cases s hg
      rw [handleMouseMove_eq cx cy s nid hnid hd hne]
      simp only [saveEffect_notes]
      apply hmapR
      intro n
      by_cases hn : (n.id == nid) = true
      · simp [idSizeEq, hn]
      · simp [idSizeEq, hn]
  refine ⟨?_, ?_, hbring, hmove, ?_, ?_, addNote_notes_eq newId rx ry rc s⟩
  · simp only [updateNoteContent, saveEffect_notes]
    apply hmapR
    intro n
    by_cases hn : (n.id == id) = true
    · simp [idSizeEq, hn]
    · simp [idSizeEq, hn]
  · simp only [updateNoteColor, saveEffect_notes]
    apply hmapR
    intro n
    by_cases hn : (n.id == id) = true
    · simp [idSizeEq, hn]
    · simp [idSizeEq, hn]
  · cases hf : (s.notes.find? fun n => n.id == id) with
    | none =>
        unfold handleDragStart
        rw [hf]
        exact forall2_idSizeEq_same s.notes
    | some t =>
        unfold handleDragStart
        rw [hf]
        exact hbring
  · intro n hn
    simp only [deleteNote, saveEffect_notes, List.mem_filter] at hn
    exact hn.1

end StickyNotes
